import Mathlib

set_option linter.unusedVariables false

/-!
Shallow embedding of the DSP core of the `fm_radio` repository
(`src/dsp.cpp` / `src/dsp.hpp`, plus the legacy top-level `dsp.cpp`),
together with proofs of the specified properties of `downsample_iq`,
`demodulate_fm`, `demodulate_am` and `downsample_audio`.

Modelling conventions:
* `int16_t` / `int32_t` values are modelled as `Int`; where the legacy
  NEON kernel accumulates in 16 bits the wrap-around is made explicit
  via `wrap16`.
* `float` values are modelled as real numbers (`ℝ`), and
  `std::complex<float>` as `ℂ`; floating-point rounding is not modelled,
  so every theorem below is about the exact-arithmetic behaviour of the
  code.  All integer sums arising for decimation factors up to a few tens
  of full-range 16-bit samples are exactly representable in `float`, so
  for those the exact model coincides with the C++ code.
* `std::vector` output parameters are modelled as an explicit `out`
  argument together with the returned list; `out.clear()` is modelled by
  the function building its result from the empty list, ignoring the
  previous contents of `out`.
* `std::atan2(y, x)` is modelled as the principal argument of the complex
  number `x + y*I` (range `(-π, π]`, with `atan2 0 0 = 0`), which is the
  real-number semantics of the C library function.
-/

namespace dsp

/-- Inner summation loop of the scalar path of `downsample_iq`
(`for (k = 0; k < stride; k += 2) { si += in[i+k]; sq += in[i+k+1]; }`):
walk the chunk two entries at a time, adding the even-indexed entries to
the first accumulator and the odd-indexed entries to the second. -/
def sumPairs : List Int → Int × Int → Int × Int
  | a :: b :: rest, (si, sq) => sumPairs rest (si + a, sq + b)
  | _, acc => acc

/-- Outer loop of the scalar path of `downsample_iq`
(`for (i = 0; i + stride <= n; i += stride)`), with the iteration count
`n / stride` passed as fuel: each iteration sums one stride-sized chunk
and emits it as one output sample. -/
def downsampleLoop : List Int → Nat → Nat → List (Int × Int)
  | _, _, 0 => []
  | input, stride, b + 1 =>
      sumPairs (input.take stride) (0, 0) :: downsampleLoop (input.drop stride) stride b

/-- The function `downsample_iq` of `src/dsp.cpp` (scalar path): clear the
output, return nothing if the input is shorter than one stride
(`decim` IQ pairs), otherwise emit the componentwise sum of each complete
group of `decim` interleaved IQ pairs. -/
def downsample_iq (input : List Int) (out : List (Int × Int)) (decim : Nat) :
    List (Int × Int) :=
  let stride := decim * 2
  let cleared : List (Int × Int) := []
  if input.length < stride then cleared
  else cleared ++ downsampleLoop input stride (input.length / stride)

/-- Wrap an integer to the range of `int16_t`, the lane width in which the
legacy NEON kernel accumulates. -/
def wrap16 (x : Int) : Int := (x + 32768) % 65536 - 32768

/-- The function `horizontal_sum_8` of the legacy top-level `dsp.cpp`:
`vpadd_s16` of the low and high halves of the 8 `int16` lanes, then
`vpadd_s16` of the result with itself, returning lane 0.  Each pairwise
add wraps at 16 bits, and the final lane 0 only combines the sums of
lanes 0–3; lanes 4–7 never reach it. -/
def horizontal_sum_8_legacy (v : List Int) : Int :=
  let sum4 := [wrap16 (v.getD 0 0 + v.getD 1 0), wrap16 (v.getD 2 0 + v.getD 3 0),
               wrap16 (v.getD 4 0 + v.getD 5 0), wrap16 (v.getD 6 0 + v.getD 7 0)]
  let sum2 := [wrap16 (sum4.getD 0 0 + sum4.getD 1 0), wrap16 (sum4.getD 2 0 + sum4.getD 3 0)]
  sum2.getD 0 0

/-- Per-block loop of the NEON path of the legacy top-level `dsp.cpp`:
`vld2q_s16` de-interleaves the first 16 entries at `ptr` into 8 I lanes
and 8 Q lanes, `horizontal_sum_8` reduces them, the two pairs at
`ptr + 16 .. ptr + 19` are added as the tail, and `ptr` advances by
`stride`.  List reads are modelled with `getD _ 0`; at the inputs
evaluated below every read is in bounds. -/
def neonLoopLegacy : List Int → Nat → Nat → List (Int × Int)
  | _, _, 0 => []
  | p, stride, b + 1 =>
      let iqI := [p.getD 0 0, p.getD 2 0, p.getD 4 0, p.getD 6 0,
                  p.getD 8 0, p.getD 10 0, p.getD 12 0, p.getD 14 0]
      let iqQ := [p.getD 1 0, p.getD 3 0, p.getD 5 0, p.getD 7 0,
                  p.getD 9 0, p.getD 11 0, p.getD 13 0, p.getD 15 0]
      let si := horizontal_sum_8_legacy iqI + (p.getD 16 0 + p.getD 18 0)
      let sq := horizontal_sum_8_legacy iqQ + (p.getD 17 0 + p.getD 19 0)
      (si, sq) :: neonLoopLegacy (p.drop stride) stride b

/-- The NEON path of `downsample_iq` in the legacy top-level `dsp.cpp`:
clear the output, return nothing for inputs shorter than one stride,
otherwise run `neonLoopLegacy` for `(in.size() / 2) / decim` blocks. -/
def downsample_iq_neon_legacy (input : List Int) (out : List (Int × Int)) (decim : Nat) :
    List (Int × Int) :=
  let stride := decim * 2
  let cleared : List (Int × Int) := []
  if input.length < stride then cleared
  else
    let blocks := input.length / 2 / decim
    cleared ++ neonLoopLegacy input stride blocks

/-- The struct `DemodState` of `dsp.hpp`: the last IQ sample of the
previous block, initialised to `(0, 0)` by the caller. -/
structure DemodState where
  prev_iq : ℂ

/-- The struct `AudioDecimState` of `dsp.hpp`: running sum of the current
decimation window and the number of samples accumulated so far. -/
structure AudioDecimState where
  accumulator : ℝ
  counter : Int

noncomputable section

/-- Real-number semantics of `std::atan2(y, x)`: the principal argument,
in `(-π, π]`, of the complex number `x + y*I`, with `atan2 0 0 = 0`. -/
def atan2 (y x : ℝ) : ℝ := Complex.arg ⟨x, y⟩

/-- The function `demodulate_fm` of `src/dsp.cpp`: for each input sample,
output `atan2` of the product of the sample with the conjugate of the
previous sample held in the state, then store the sample in the state.
The C++ code resizes `out` to `in.size()` and overwrites every slot, so
the result is independent of the previous contents of `out` and is
returned directly here. -/
def demodulate_fm : List ℂ → DemodState → List ℝ × DemodState
  | [], state => ([], state)
  | sample :: rest, state =>
      let prod := sample * (starRingEnd ℂ) state.prev_iq
      let y := atan2 prod.im prod.re
      let r := demodulate_fm rest ⟨sample⟩
      (y :: r.1, r.2)

/-- Per-sample loop of the scalar path of `demodulate_am` in
`src/dsp.cpp`: push the magnitude `std::abs(s)` of each sample onto the
output. -/
def amLoop : List ℂ → List ℝ → List ℝ
  | [], out => out
  | s :: rest, out => amLoop rest (out ++ [Complex.abs s])

/-- The function `demodulate_am` of `src/dsp.cpp` (scalar path): clear
the output, then push one magnitude per input sample. -/
def demodulate_am (input : List ℂ) (out : List ℝ) : List ℝ :=
  let cleared : List ℝ := []
  amLoop input cleared

/-- Per-sample loop of `downsample_audio` in `src/dsp.cpp`: add the
sample to the accumulator and increment the counter; when the counter
reaches `decim`, push `accumulator * scale` and reset both. -/
def audioLoop : List ℝ → List ℝ → Int → AudioDecimState → ℝ → List ℝ × AudioDecimState
  | [], out, _, state, _ => (out, state)
  | v :: rest, out, decim, state, scale =>
      let acc := state.accumulator + v
      let cnt := state.counter + 1
      if cnt = decim then
        audioLoop rest (out ++ [acc * scale]) decim ⟨0, 0⟩ scale
      else
        audioLoop rest out decim ⟨acc, cnt⟩ scale

/-- The function `downsample_audio` of `src/dsp.cpp`: compute
`scale = gain / decim`, clear the output, then run the accumulation loop
over the input with the caller-supplied state. -/
def downsample_audio (input : List ℝ) (out : List ℝ) (decim : Int)
    (state : AudioDecimState) (gain : ℝ) : List ℝ × AudioDecimState :=
  let scale := gain / (decim : ℝ)
  let cleared : List ℝ := []
  audioLoop input cleared decim state scale

end

/-- C4: the vector-accelerated and scalar code paths of `downsample_iq`
are claimed to produce equal output sequences for every decimation
factor.  The NEON path of the legacy top-level `dsp.cpp` violates this:
at decimation factor 10 on twenty interleaved int16 samples with I = 1
and Q = 0 it yields `(6, 0)` — its `horizontal_sum_8` reduction only
combines lanes 0–3, dropping lanes 4–7 — while the scalar path yields
the correct group sum `(10, 0)`. -/
theorem downsample_iq_neon_legacy_diverges :
    downsample_iq_neon_legacy [1, 0, 1, 0, 1, 0, 1, 0, 1, 0, 1, 0, 1, 0, 1, 0, 1, 0, 1, 0] [] 10
        = [(6, 0)]
    ∧ downsample_iq [1, 0, 1, 0, 1, 0, 1, 0, 1, 0, 1, 0, 1, 0, 1, 0, 1, 0, 1, 0] [] 10
        = [(10, 0)]
    ∧ ((6, 0) : Int × Int) ≠ (10, 0) := by
  refine ⟨by decide, by decide, by decide⟩

/-- C5: the partial group sums of `downsample_iq` are claimed to be
accumulated in a type wide enough that N × 32767 cannot overflow before
the conversion to float.  The legacy `horizontal_sum_8` accumulates its
pairwise adds in 16-bit lanes: at decimation factor 10 on twenty samples
all equal to 32767 the legacy NEON path yields `(65530, 65530)` instead
of the exact group sum `(327670, 327670)`, which the scalar path
computes exactly. -/
theorem horizontal_sum_8_legacy_overflow :
    downsample_iq_neon_legacy (List.replicate 20 32767) [] 10 = [(65530, 65530)]
    ∧ downsample_iq (List.replicate 20 32767) [] 10 = [(327670, 327670)]
    ∧ ((65530 : Int) ≠ 327670) := by
  refine ⟨by decide, by decide, by decide⟩

/-- C2: `demodulate_fm` is continuous across call splits — demodulating a
concatenated block in one call gives the same outputs, sample for sample,
and the same final state as demodulating the two halves in two successive
calls threading the state through. -/
theorem demodulate_fm_split (a b : List ℂ) (state : DemodState) :
    demodulate_fm (a ++ b) state =
      ((demodulate_fm a state).1 ++ (demodulate_fm b (demodulate_fm a state).2).1,
       (demodulate_fm b (demodulate_fm a state).2).2) := by
  induction a generalizing state with
  | nil => simp [demodulate_fm]
  | cons s rest ih => simp [demodulate_fm, ih]

/-- Unfolding lemma: `atan2` applied to the imaginary and real parts of a
complex number is its principal argument. -/
theorem atan2_arg (w : ℂ) : atan2 w.im w.re = Complex.arg w := rfl

/-- Output of `demodulate_fm`: sample `k` is the principal argument of
the product of input sample `k` with the conjugate of its predecessor
(the state's `prev_iq` for `k = 0`). -/
theorem demodulate_fm_out (input : List ℂ) (state : DemodState) :
    (demodulate_fm input state).1 =
      List.zipWith (fun z p => Complex.arg (z * (starRingEnd ℂ) p)) input
        (state.prev_iq :: input) := by
  induction input generalizing state with
  | nil => rfl
  | cons s rest ih =>
    show atan2 (s * (starRingEnd ℂ) state.prev_iq).im
          (s * (starRingEnd ℂ) state.prev_iq).re :: (demodulate_fm rest ⟨s⟩).1 = _
    rw [atan2_arg, ih ⟨s⟩]
    rfl

/-- Final state of `demodulate_fm`: the last sample of the block, or the
entry state for an empty block. -/
theorem demodulate_fm_state (input : List ℂ) (state : DemodState) :
    (demodulate_fm input state).2 = ⟨input.getLastD state.prev_iq⟩ := by
  induction input generalizing state with
  | nil => rfl
  | cons s rest ih =>
    show (demodulate_fm rest ⟨s⟩).2 = _
    rw [ih ⟨s⟩, List.getLastD_cons]

/-- Every output of `demodulate_fm` lies in the principal range
`(-π, π]`. -/
theorem demodulate_fm_range (input : List ℂ) (state : DemodState) :
    ∀ y ∈ (demodulate_fm input state).1, -Real.pi < y ∧ y ≤ Real.pi := by
  induction input generalizing state with
  | nil => intro y hy; simp [demodulate_fm] at hy
  | cons s rest ih =>
    intro y hy
    simp only [demodulate_fm, List.mem_cons] at hy
    rcases hy with h | h
    · subst h; exact ⟨Complex.neg_pi_lt_arg _, Complex.arg_le_pi _⟩
    · exact ih ⟨s⟩ y h

/-- C1: `demodulate_fm` produces exactly one output per input sample;
output `k` is the principal-value phase angle, in `(-π, π]`, of the
product of input sample `k` with the conjugate of its predecessor, the
predecessor of the first sample being the entry state; after the call the
state holds the last sample of the block; the zero sample is defined and
its zero-magnitude product yields angle 0. -/
theorem demodulate_fm_spec (input : List ℂ) (state : DemodState) :
    (demodulate_fm input state).1 =
      List.zipWith (fun z p => Complex.arg (z * (starRingEnd ℂ) p)) input
        (state.prev_iq :: input)
    ∧ (demodulate_fm input state).1.length = input.length
    ∧ (∀ y ∈ (demodulate_fm input state).1, -Real.pi < y ∧ y ≤ Real.pi)
    ∧ (demodulate_fm input state).2 = ⟨input.getLastD state.prev_iq⟩
    ∧ (∀ st : DemodState, (demodulate_fm [0] st).1 = [0]) := by
  refine ⟨demodulate_fm_out input state, ?_, demodulate_fm_range input state,
    demodulate_fm_state input state, ?_⟩
  · rw [demodulate_fm_out]; simp
  · intro st
    have h0 : ((⟨0, 0⟩ : ℂ)) = 0 := rfl
    simp [demodulate_fm, atan2, h0, Complex.arg_zero]

/-- Witness for C1: `demodulate_fm` evaluated on the single sample `I`
with previous sample `1`. -/
theorem demodulate_fm_spec_witness :
    (demodulate_fm [Complex.I] ⟨1⟩).1 = [Complex.arg (Complex.I * (starRingEnd ℂ) 1)]
    ∧ (-Real.pi < Complex.arg (Complex.I * (starRingEnd ℂ) 1)
       ∧ Complex.arg (Complex.I * (starRingEnd ℂ) 1) ≤ Real.pi) := by
  obtain ⟨hout, hlen, hrange, hstate, hzero⟩ := demodulate_fm_spec [Complex.I] ⟨1⟩
  constructor
  · rw [hout]; rfl
  · exact hrange _ (by rw [hout]; exact List.mem_singleton_self _)

/-- Prefix lemma for the AM loop: output already accumulated in `out`
stays in front of what the loop appends. -/
theorem amLoop_append (input : List ℂ) : ∀ out : List ℝ,
    amLoop input out = out ++ amLoop input [] := by
  induction input with
  | nil => intro out; simp [amLoop]
  | cons s rest ih =>
    intro out
    simp only [amLoop, List.nil_append]
    rw [ih (out ++ [Complex.abs s]), ih [Complex.abs s], List.append_assoc]

/-- The function `demodulate_am` maps each sample to its magnitude,
regardless of the previous contents of `out`. -/
theorem demodulate_am_map (input : List ℂ) (out : List ℝ) :
    demodulate_am input out = input.map Complex.abs := by
  show amLoop input [] = input.map Complex.abs
  induction input with
  | nil => rfl
  | cons s rest ih =>
    simp only [amLoop, List.nil_append, List.map_cons]
    rw [amLoop_append rest [Complex.abs s], ih]
    rfl

/-- C9: `demodulate_am` produces exactly one output per input sample,
equal to its Euclidean magnitude `√(re² + im²)`, carries no state (the
result is independent of the previous contents of the output container,
which is cleared), and in particular maps `(3, 4)` to `5` and `(0, 0)`
to `0`. -/
theorem demodulate_am_spec (input : List ℂ) (out out' : List ℝ) :
    (demodulate_am input out).length = input.length
    ∧ (∀ j, j < input.length →
        (demodulate_am input out).getD j 0 =
          Real.sqrt ((input.getD j 0).re ^ 2 + (input.getD j 0).im ^ 2))
    ∧ demodulate_am input out = demodulate_am input out'
    ∧ demodulate_am [⟨3, 4⟩] [] = [5]
    ∧ demodulate_am [0] [] = [0] := by
  refine ⟨?_, ?_, ?_, ?_, ?_⟩
  · rw [demodulate_am_map]; simp
  · intro j hj
    rw [demodulate_am_map, List.getD_eq_getElem?_getD, List.getD_eq_getElem?_getD,
      List.getElem?_map, List.getElem?_eq_getElem hj]
    simp [Complex.abs_apply, Complex.normSq_apply]
    ring_nf
  · rw [demodulate_am_map input out, demodulate_am_map input out']
  · rw [demodulate_am_map]
    simp only [List.map_cons, List.map_nil]
    rw [show Complex.abs ⟨3, 4⟩ = 5 by
      rw [Complex.abs_apply, Complex.normSq_mk]
      rw [show (3:ℝ) * 3 + 4 * 4 = 5 ^ 2 by norm_num]
      exact Real.sqrt_sq (by norm_num)]
  · rw [demodulate_am_map]; simp

/-- Witness for C9: `demodulate_am` evaluated on the single sample
`(3, 4)`. -/
theorem demodulate_am_spec_witness :
    (demodulate_am [⟨3, 4⟩] []).length = 1
    ∧ (demodulate_am [⟨3, 4⟩] []).getD 0 0 =
        Real.sqrt ((3 : ℝ) ^ 2 + (4 : ℝ) ^ 2) := by
  obtain ⟨hlen, hget, -, -, -⟩ := demodulate_am_spec [⟨3, 4⟩] [] []
  refine ⟨by simpa using hlen, ?_⟩
  have h := hget 0 (by norm_num)
  simpa using h

/-- C10: a call on an empty input block leaves `DemodState` unchanged for
`demodulate_fm` and leaves `AudioDecimState` (accumulator and counter)
unchanged for `downsample_audio`, and in both cases the output container
ends empty. -/
theorem empty_block_frame (state : DemodState) (astate : AudioDecimState)
    (decim : Int) (gain : ℝ) (out out' : List ℝ) :
    demodulate_fm [] state = ([], state)
    ∧ downsample_audio [] out decim astate gain = ([], astate) := by
  exact ⟨rfl, rfl⟩

/-- Prefix lemma for the audio loop: output already accumulated in `out`
stays in front of what the loop appends, and the final state does not
depend on `out`. -/
theorem audioLoop_out (input : List ℝ) : ∀ (out : List ℝ) (decim : Int)
    (state : AudioDecimState) (scale : ℝ),
    audioLoop input out decim state scale =
      (out ++ (audioLoop input [] decim state scale).1,
       (audioLoop input [] decim state scale).2) := by
  induction input with
  | nil => intro out decim state scale; simp [audioLoop]
  | cons v rest ih =>
    intro out decim state scale
    simp only [audioLoop, List.nil_append]
    by_cases h : state.counter + 1 = decim
    · rw [if_pos h, if_pos h, ih (out ++ [(state.accumulator + v) * scale]),
        ih [(state.accumulator + v) * scale], List.append_assoc]
    · rw [if_neg h, if_neg h]
      exact ih out decim ⟨state.accumulator + v, state.counter + 1⟩ scale

/-- C6: `downsample_audio` adds each sample to the accumulator and
increments the counter; when the counter reaches the decimation factor it
emits `accumulator * (gain / decim)` and resets accumulator and counter
to zero, otherwise the partial window stays in the state; feeding
`{1, 2, 3}` and then `{4, 5, 6}` with factor 2 and gain 1 yields `{1.5}`
and then `{3.5, 5.5}`, the remainder 3 spanning the call boundary. -/
theorem downsample_audio_spec (v : ℝ) (rest : List ℝ) (out : List ℝ) (decim : Int)
    (state : AudioDecimState) (gain : ℝ) :
    (downsample_audio (v :: rest) out decim state gain =
      if state.counter + 1 = decim then
        (((state.accumulator + v) * (gain / (decim : ℝ)))
            :: (downsample_audio rest [] decim ⟨0, 0⟩ gain).1,
         (downsample_audio rest [] decim ⟨0, 0⟩ gain).2)
      else downsample_audio rest [] decim ⟨state.accumulator + v, state.counter + 1⟩ gain)
    ∧ downsample_audio [1, 2, 3] [] 2 ⟨0, 0⟩ 1 = ([1.5], ⟨3, 1⟩)
    ∧ downsample_audio [4, 5, 6] [] 2 ⟨3, 1⟩ 1 = ([3.5, 5.5], ⟨0, 0⟩) := by
  refine ⟨?_, ?_, ?_⟩
  · show audioLoop (v :: rest) [] decim state (gain / (decim : ℝ)) = _
    simp only [audioLoop, List.nil_append]
    by_cases h : state.counter + 1 = decim
    · rw [if_pos h, if_pos h,
        audioLoop_out rest [(state.accumulator + v) * (gain / (decim : ℝ))]]
      rfl
    · rw [if_neg h, if_neg h]
      rfl
  · norm_num [downsample_audio, audioLoop, AudioDecimState.mk.injEq]
  · norm_num [downsample_audio, audioLoop, AudioDecimState.mk.injEq]

/-- Invariant of the audio loop: starting from a counter `c < decim` and
accumulator `a`, the final counter is `(c + n) % decim` for `n` input
samples, and the final accumulator is `a` plus the whole input sum when no
window closed, and the sum of the trailing `(c + n) % decim` input
samples otherwise. -/
theorem audioLoop_run (decim : Nat) (hd : 0 < decim) (input : List ℝ) :
    ∀ (a : ℝ) (c : Nat), c < decim → ∀ (out : List ℝ) (scale : ℝ),
      (audioLoop input out (decim : Int) ⟨a, (c : Int)⟩ scale).2.counter
          = (((c + input.length) % decim : Nat) : Int)
      ∧ (audioLoop input out (decim : Int) ⟨a, (c : Int)⟩ scale).2.accumulator
          = (if c + input.length < decim then a + input.sum
             else (input.drop (input.length - (c + input.length) % decim)).sum) := by
  induction input with
  | nil =>
    intro a c hc out scale
    constructor
    · simp [audioLoop, Nat.mod_eq_of_lt hc]
    · simp [audioLoop, hc]
  | cons v rest ih =>
    intro a c hc out scale
    simp only [audioLoop, List.length_cons, List.sum_cons]
    by_cases h : (c : Int) + 1 = (decim : Int)
    · rw [if_pos h]
      have hc1 : c + 1 = decim := by exact_mod_cast h
      have h0 := ih 0 0 hd (out ++ [(a + v) * scale]) scale
      simp only [Nat.cast_zero] at h0
      constructor
      · rw [h0.1, zero_add, show c + (rest.length + 1) = decim + rest.length from by omega,
          Nat.add_mod_left]
      · rw [h0.2]
        rw [if_neg (show ¬(c + (rest.length + 1) < decim) from by omega)]
        have hk : (c + (rest.length + 1)) % decim = rest.length % decim := by
          rw [show c + (rest.length + 1) = decim + rest.length from by omega,
            Nat.add_mod_left]
        rw [hk]
        have hk2 : rest.length % decim ≤ rest.length := Nat.mod_le _ _
        rw [show rest.length + 1 - rest.length % decim
              = (rest.length - rest.length % decim) + 1 from by omega,
          List.drop_succ_cons]
        by_cases hr : rest.length < decim
        · rw [if_pos (show 0 + rest.length < decim from by omega),
            Nat.mod_eq_of_lt hr, Nat.sub_self, List.drop_zero, zero_add]
        · rw [if_neg (show ¬(0 + rest.length < decim) from by omega), zero_add]
    · rw [if_neg h]
      have hcd : c + 1 < decim := by
        have hne : c + 1 ≠ decim := by
          intro hEq
          exact h (by exact_mod_cast congrArg (Nat.cast : Nat → Int) hEq)
        omega
      have h1 := ih (a + v) (c + 1) hcd out scale
      simp only [Nat.cast_add, Nat.cast_one] at h1
      constructor
      · rw [h1.1, show c + 1 + rest.length = c + (rest.length + 1) from by omega]
      · rw [h1.2, show c + 1 + rest.length = c + (rest.length + 1) from by omega]
        by_cases hq : c + (rest.length + 1) < decim
        · rw [if_pos hq, if_pos hq]
          ring
        · rw [if_neg hq, if_neg hq]
          have hk : (c + (rest.length + 1)) % decim ≤ rest.length := by
            have hs : (c + (rest.length + 1)) % decim
                = (c + (rest.length + 1) - decim) % decim := by
              rw [Nat.mod_eq_sub_mod (by omega)]
            have hle := Nat.mod_le (c + (rest.length + 1) - decim) decim
            omega
          rw [show rest.length + 1 - (c + (rest.length + 1)) % decim
                = (rest.length - (c + (rest.length + 1)) % decim) + 1 from by omega,
            List.drop_succ_cons]

/-- C7: if on entry the counter of `AudioDecimState` is in `[0, decim)`
and the accumulator is the sum of the `counter`-many samples carried from
the stream history `p`, then on exit the counter is again in
`[0, decim)` — namely `(p.length + input.length) % decim` — and the
accumulator is exactly the sum of the trailing not-yet-emitted samples
of the stream `p ++ input`. -/
theorem downsample_audio_invariant (decim : Nat) (hd : 1 ≤ decim) (input p : List ℝ)
    (gain : ℝ) (hp : p.length < decim) :
    0 ≤ (downsample_audio input [] (decim : Int) ⟨p.sum, (p.length : Int)⟩ gain).2.counter
    ∧ (downsample_audio input [] (decim : Int) ⟨p.sum, (p.length : Int)⟩ gain).2.counter
        < (decim : Int)
    ∧ (downsample_audio input [] (decim : Int) ⟨p.sum, (p.length : Int)⟩ gain).2.counter
        = (((p.length + input.length) % decim : Nat) : Int)
    ∧ (downsample_audio input [] (decim : Int) ⟨p.sum, (p.length : Int)⟩ gain).2.accumulator
        = ((p ++ input).drop ((p ++ input).length - (p.length + input.length) % decim)).sum := by
  have h := audioLoop_run decim hd input p.sum p.length hp [] (gain / (decim : ℝ))
  simp only [downsample_audio, Int.cast_natCast]
  refine ⟨?_, ?_, h.1, ?_⟩
  · rw [h.1]; exact Int.natCast_nonneg _
  · rw [h.1]; exact_mod_cast Nat.mod_lt _ hd
  · rw [h.2, List.length_append]
    by_cases hq : p.length + input.length < decim
    · rw [if_pos hq, Nat.mod_eq_of_lt hq, Nat.sub_self, List.drop_zero, List.sum_append]
    · rw [if_neg hq]
      have hk : (p.length + input.length) % decim ≤ input.length := by
        have hs : (p.length + input.length) % decim
            = (p.length + input.length - decim) % decim := by
          rw [Nat.mod_eq_sub_mod (by omega)]
        have hle := Nat.mod_le (p.length + input.length - decim) decim
        omega
      rw [show p.length + input.length - (p.length + input.length) % decim
            = p.length + (input.length - (p.length + input.length) % decim) from by omega,
        List.drop_append]

/-- Witness for C7: carried state `(3, 1)` then input `{4, 5, 6}` with
factor 2 ends with counter 0 and empty accumulator. -/
theorem downsample_audio_invariant_witness :
    0 ≤ (downsample_audio [4, 5, 6] [] (2 : Int) ⟨3, 1⟩ 1).2.counter
    ∧ (downsample_audio [4, 5, 6] [] (2 : Int) ⟨3, 1⟩ 1).2.counter < 2
    ∧ (downsample_audio [4, 5, 6] [] (2 : Int) ⟨3, 1⟩ 1).2.counter = 0
    ∧ (downsample_audio [4, 5, 6] [] (2 : Int) ⟨3, 1⟩ 1).2.accumulator = 0 := by
  have h := downsample_audio_invariant 2 (by norm_num) [4, 5, 6] [3] 1 (by simp)
  norm_num at h
  exact h

/-- Accumulator shift for the pairwise summation loop: running `sumPairs`
from `(si, sq)` only offsets the result obtained from `(0, 0)`. -/
theorem sumPairs_acc : ∀ (l : List Int) (si sq : Int),
    sumPairs l (si, sq) = (si + (sumPairs l (0, 0)).1, sq + (sumPairs l (0, 0)).2)
  | [], si, sq => by simp [sumPairs]
  | [a], si, sq => by simp [sumPairs]
  | a :: b :: rest, si, sq => by
      simp only [sumPairs]
      rw [sumPairs_acc rest (si + a) (sq + b), sumPairs_acc rest (0 + a) (0 + b),
        Prod.mk.injEq]
      constructor <;> ring

/-- Summing the first `N` interleaved pairs of a list gives the sums of
its even-indexed and odd-indexed entries. -/
theorem sumPairs_take : ∀ (N : Nat) (l : List Int), 2 * N ≤ l.length →
    sumPairs (l.take (2 * N)) (0, 0) =
      (∑ p ∈ Finset.range N, l.getD (2 * p) 0,
       ∑ p ∈ Finset.range N, l.getD (2 * p + 1) 0)
  | 0, l, _ => by simp [sumPairs]
  | N + 1, [], h => by simp at h
  | N + 1, [a], h => by simp at h; omega
  | N + 1, a :: b :: rest, h => by
      have hr : 2 * N ≤ rest.length := by
        simp only [List.length_cons] at h; omega
      have ih := sumPairs_take N rest hr
      have e1 : ∀ p, (a :: b :: rest).getD (2 * (p + 1)) 0 = rest.getD (2 * p) 0 := by
        intro p
        rw [show 2 * (p + 1) = 2 * p + 1 + 1 from by ring]
        rfl
      have e2 : ∀ p, (a :: b :: rest).getD (2 * (p + 1) + 1) 0 = rest.getD (2 * p + 1) 0 := by
        intro p
        rw [show 2 * (p + 1) + 1 = 2 * p + 1 + 1 + 1 from by ring]
        rfl
      rw [show 2 * (N + 1) = 2 * N + 1 + 1 from by ring]
      simp only [List.take_succ_cons]
      rw [sumPairs, sumPairs_acc (rest.take (2 * N)) (0 + a) (0 + b), ih,
        Prod.mk.injEq]
      constructor
      · rw [Finset.sum_range_succ' (fun p => (a :: b :: rest).getD (2 * p) 0) N]
        simp only [e1]
        rw [show (a :: b :: rest).getD (2 * 0) 0 = a from rfl]
        ring
      · rw [Finset.sum_range_succ' (fun p => (a :: b :: rest).getD (2 * p + 1) 0) N]
        simp only [e2]
        rw [show (a :: b :: rest).getD (2 * 0 + 1) 0 = b from rfl]
        ring

/-- Each of the `blocks` iterations of the scalar decimation loop emits
the componentwise sum of its group of `decim` interleaved pairs. -/
theorem downsampleLoop_spec (decim : Nat) (hd : 0 < decim) : ∀ (blocks : Nat) (l : List Int),
    decim * 2 * blocks ≤ l.length →
      (downsampleLoop l (decim * 2) blocks).length = blocks
      ∧ ∀ j, j < blocks →
          (downsampleLoop l (decim * 2) blocks).getD j (0, 0) =
            (∑ p ∈ Finset.range decim, l.getD (2 * (j * decim + p)) 0,
             ∑ p ∈ Finset.range decim, l.getD (2 * (j * decim + p) + 1) 0)
  | 0, l, h => by
      refine ⟨rfl, ?_⟩
      intro j hj
      omega
  | blocks + 1, l, h => by
      rw [show decim * 2 * (blocks + 1) = decim * 2 * blocks + decim * 2 from by ring] at h
      have hlen : decim * 2 ≤ l.length := le_trans (Nat.le_add_left _ _) h
      have hrest : decim * 2 * blocks ≤ (l.drop (decim * 2)).length := by
        rw [List.length_drop]
        exact Nat.le_sub_of_add_le h
      have ih := downsampleLoop_spec decim hd blocks (l.drop (decim * 2)) hrest
      constructor
      · simp only [downsampleLoop, List.length_cons, ih.1]
      · intro j hj
        cases j with
        | zero =>
          simp only [downsampleLoop, List.getD_cons_zero]
          rw [show decim * 2 = 2 * decim from by ring,
            sumPairs_take decim l (by omega)]
          simp only [Nat.zero_mul, Nat.zero_add]
        | succ j =>
          simp only [downsampleLoop, List.getD_cons_succ]
          rw [ih.2 j (by omega), Prod.mk.injEq]
          constructor
          · apply Finset.sum_congr rfl
            intro p hp
            rw [List.getD_eq_getElem?_getD, List.getD_eq_getElem?_getD, List.getElem?_drop,
              show decim * 2 + 2 * (j * decim + p) = 2 * ((j + 1) * decim + p) from by ring]
          · apply Finset.sum_congr rfl
            intro p hp
            rw [List.getD_eq_getElem?_getD, List.getD_eq_getElem?_getD, List.getElem?_drop,
              show decim * 2 + (2 * (j * decim + p) + 1) = 2 * ((j + 1) * decim + p) + 1
                from by ring]

/-- C3: for decimation factor `N ≥ 1`, `downsample_iq` produces exactly
one output per complete group of `N` consecutive IQ pairs — that is,
`⌊⌊len / 2⌋ / N⌋` outputs, discarding a trailing incomplete group — and
output `j` is the pair of unscaled sums of the I components and of the Q
components over the `j`-th group of `N` pairs. -/
theorem downsample_iq_spec (decim : Nat) (hd : 1 ≤ decim) (input : List Int)
    (out : List (Int × Int)) :
    (downsample_iq input out decim).length = input.length / 2 / decim
    ∧ ∀ j, j < input.length / 2 / decim →
        (downsample_iq input out decim).getD j (0, 0) =
          (∑ p ∈ Finset.range decim, input.getD (2 * (j * decim + p)) 0,
           ∑ p ∈ Finset.range decim, input.getD (2 * (j * decim + p) + 1) 0) := by
  have hdd : input.length / 2 / decim = input.length / (decim * 2) := by
    rw [Nat.div_div_eq_div_mul, mul_comm]
  by_cases hshort : input.length < decim * 2
  · have h0 : input.length / (decim * 2) = 0 := Nat.div_eq_of_lt hshort
    constructor
    · simp [downsample_iq, hshort, hdd, h0]
    · intro j hj
      rw [hdd, h0] at hj
      omega
  · have hblocks : decim * 2 * (input.length / (decim * 2)) ≤ input.length := by
      rw [mul_comm]
      exact Nat.div_mul_le_self _ _
    have hs := downsampleLoop_spec decim (by omega) (input.length / (decim * 2)) input hblocks
    constructor
    · simp only [downsample_iq]
      rw [if_neg hshort]
      simp only [List.nil_append]
      rw [hs.1, hdd]
    · intro j hj
      simp only [downsample_iq]
      rw [if_neg hshort]
      simp only [List.nil_append]
      exact hs.2 j (by rw [hdd] at hj; exact hj)

/-- Witness for C3: eight interleaved samples at factor 2 give two
outputs, the first being `(1 + 3, 2 + 4)`. -/
theorem downsample_iq_spec_witness :
    (downsample_iq [1, 2, 3, 4, 5, 6, 7, 8] [] 2).length = 2
    ∧ (downsample_iq [1, 2, 3, 4, 5, 6, 7, 8] [] 2).getD 0 (0, 0) = (4, 6) := by
  obtain ⟨hlen, hget⟩ := downsample_iq_spec 2 (by norm_num) [1, 2, 3, 4, 5, 6, 7, 8] []
  constructor
  · simpa using hlen
  · rw [hget 0 (by decide)]
    decide

/-- C8: for decimation factor `N ≥ 1`, `downsample_iq` on an input with
fewer than `N` complete IQ pairs produces an empty output (and no error
state exists: the function is total), and in every call the output
container is cleared before writing, so the result never depends on its
prior contents. -/
theorem downsample_iq_short_input (decim : Nat) (hd : 1 ≤ decim) (input : List Int)
    (out out' : List (Int × Int)) :
    (input.length / 2 < decim → downsample_iq input out decim = [])
    ∧ downsample_iq input out decim = downsample_iq input out' decim := by
  constructor
  · intro hshort
    have hlt : input.length < decim * 2 := by omega
    simp [downsample_iq, hlt]
  · rfl

/-- Witness for C8: three samples (one complete pair) at factor 2 give an
empty output, whatever was in the output container before. -/
theorem downsample_iq_short_input_witness :
    downsample_iq [1, 2, 3] [(99, 99)] 2 = []
    ∧ downsample_iq [1, 2, 3] [(99, 99)] 2 = downsample_iq [1, 2, 3] [] 2 := by
  obtain ⟨hempty, hclear⟩ := downsample_iq_short_input 2 (by norm_num) [1, 2, 3] [(99, 99)] []
  exact ⟨hempty (by decide), hclear⟩

end dsp
